import Mathlib

/-!
Verification of the PLoM (Probabilistic Learning on Manifolds) numerical
pipeline of `plom.py` against its specification.

The relevant source functions are shallowly embedded below, working over
exact real (or, for the purely rational-arithmetic routines, over an
arbitrary linear ordered field) arithmetic:

* `scaleMinMax`, `scaleNormalize`, `inverse_scale` embed `_scaleMinMax`,
  `_scaleNormalize` and `_inverse_scale` (the C1 scaler component);
* `pca_cum_energy_trunc` embeds the `cum_energy` truncation branch of `_pca`;
* `get_dmaps_optimal_dimension` embeds `_get_dmaps_optimal_dimension`;
* `kde_s`, `kde_shat` and `get_L` embed the Silverman bandwidth computation
  and the canonical (method 2) KDE log-density-gradient branch of `_get_L`;
* `simulate_ito_step` embeds `_simulate_ito_step`, with the Gaussian draw
  `np.random.randn(nu, N)` of the step passed in as the explicit matrix `R`;
* `matInv`, `reduction_matrix`, `sample_projection`,
  `inverse_sample_projection` embed `np.linalg.inv`-based reduction in
  `_sample_projection` and `_inverse_sample_projection`;
* `get_conditional_weights` embeds the sequential branch of
  `_get_conditional_weights`; its unguarded division by the per-column
  standard deviation (NaN weights on a constant column in the float
  program, undefined over exact arithmetic) is made explicit as an
  `Option` error path;
* `get_samples` embeds the control flow of the sample getter `get_samples`.

Matrices are `Matrix (Fin rows) (Fin cols) ℝ`; `numpy` reductions become
`Finset` sums/sups; the row-major data frames keep the source shapes.
-/

open scoped BigOperators

namespace PLoM

/-! ## Scaler (`_scaleMinMax`, `_scaleNormalize`, `_inverse_scale`) -/

/-- Embedding of `_scaleMinMax`: `Xmin = np.min(X, axis=0)`,
`Xmax = np.max(X, axis=0)`, `scale = Xmax - Xmin`, `scale[scale==0] = 1`,
`X_scaled = (X - Xmin) / scale`; returns `(X_scaled, Xmin, scale)`. -/
noncomputable def scaleMinMax {N n : ℕ} [NeZero N] (X : Matrix (Fin N) (Fin n) ℝ) :
    Matrix (Fin N) (Fin n) ℝ × (Fin n → ℝ) × (Fin n → ℝ) :=
  let Xmin : Fin n → ℝ := fun j => Finset.univ.inf' Finset.univ_nonempty (fun i => X i j)
  let Xmax : Fin n → ℝ := fun j => Finset.univ.sup' Finset.univ_nonempty (fun i => X i j)
  let scale : Fin n → ℝ := fun j => if Xmax j - Xmin j = 0 then 1 else Xmax j - Xmin j
  (Matrix.of fun i j => (X i j - Xmin j) / scale j, Xmin, scale)

/-- Embedding of `_scaleNormalize`: `means = np.mean(X, axis=0)`,
`scales = np.std(X, axis=0)` (population standard deviation),
`scales[scales==0] = 1`, `X_scaled = (X - means) / scales`. -/
noncomputable def scaleNormalize {N n : ℕ} (X : Matrix (Fin N) (Fin n) ℝ) :
    Matrix (Fin N) (Fin n) ℝ × (Fin n → ℝ) × (Fin n → ℝ) :=
  let means : Fin n → ℝ := fun j => (∑ i, X i j) / N
  let std : Fin n → ℝ := fun j => Real.sqrt ((∑ i, (X i j - means j) ^ 2) / N)
  let scales : Fin n → ℝ := fun j => if std j = 0 then 1 else std j
  (Matrix.of fun i j => (X i j - means j) / scales j, means, scales)

/-- Embedding of `_inverse_scale`: `return X * scales + centers`. -/
def inverse_scale {N n : ℕ} (X : Matrix (Fin N) (Fin n) ℝ)
    (centers scales : Fin n → ℝ) : Matrix (Fin N) (Fin n) ℝ :=
  Matrix.of fun i j => X i j * scales j + centers j

/-! ## PCA `cum_energy` truncation (the `method=='cum_energy'` branch of `_pca`) -/

/-- Embedding of the `cum_energy` truncation loop of `_pca` on the ascending
eigenvalue list: `for i in range(len(eigvals)+1): if
np.sum(eigvals[0:i])/tot_eigvals > (1-cumulative_energy): eigvals_trunc =
eigvals[i-1:]; break`.  When no index fires, the Python code would leave
`eigvals_trunc` unbound (a `NameError`); the embedding returns `[]` there,
and the theorem below shows the branch always fires under the claim's
hypotheses. -/
def pca_cum_energy_trunc {α : Type*} [LinearOrderedField α]
    (eigvals : List α) (cumulative_energy : α) : List α :=
  match (List.range (eigvals.length + 1)).find?
      (fun i => decide ((eigvals.take i).sum / eigvals.sum > 1 - cumulative_energy)) with
  | some i => eigvals.drop (i - 1)
  | none => []

/-! ## DMAPS manifold dimension (`_get_dmaps_optimal_dimension`) -/

/-- Embedding of `_get_dmaps_optimal_dimension`: `m = len(eigvalues) - 1;
for a in range(2, len(eigvalues)): r = eigvalues[a] / eigvalues[1];
if r < L: m = a - 1; break; return m`.  `range(2, len)` is
`List.range' 2 (len - 2)` and the `for`/`break` is the first match. -/
def get_dmaps_optimal_dimension {α : Type*} [LinearOrderedField α]
    (eigvalues : List α) (L : α) : ℕ :=
  match (List.range' 2 (eigvalues.length - 2)).find?
      (fun a => decide (eigvalues.getD a 0 / eigvalues.getD 1 0 < L)) with
  | some a => a - 1
  | none => eigvalues.length - 1

/-! ## KDE gradient of the log-density (`_get_L`, canonical `method==2`) -/

/-- Silverman bandwidth of `_get_L`:
`s = (4 / (N*(2+nu))) ** (1/(nu+4)) * kde_bw_factor`. -/
noncomputable def kde_s (N nu : ℕ) (kde_bw_factor : ℝ) : ℝ :=
  ((4 : ℝ) / (N * (2 + nu))) ^ ((1 : ℝ) / (nu + 4)) * kde_bw_factor

/-- Modified bandwidth of `_get_L`: `shat = s / np.sqrt(s**2 + (N-1)/N)`. -/
noncomputable def kde_shat (N nu : ℕ) (kde_bw_factor : ℝ) : ℝ :=
  kde_s N nu kde_bw_factor /
    Real.sqrt (kde_s N nu kde_bw_factor ^ 2 + ((N : ℝ) - 1) / N)

/-- Embedding of the `method==2` branch of `_get_L` (the canonical joint-KDE
gradient of the log-density).  Column by column of the query matrix `u`:
`scaled_H = H * shat / s`; `dist_mat_list = [(scaled_H.T - x).T for x in u.T]`;
`norms_list = np.exp((-1/(2*shat**2)) * norm(dist, axis=0)**2)`;
`q_list = sum / N`; `dq_list = dist.dot(norms) / shat**2 / N`;
`pot = (dq_list / q_list[:,None]).T`. -/
noncomputable def get_L {nu N M : ℕ} (H : Matrix (Fin nu) (Fin N) ℝ)
    (u : Matrix (Fin nu) (Fin M) ℝ) (kde_bw_factor : ℝ) :
    Matrix (Fin nu) (Fin M) ℝ :=
  let s := kde_s N nu kde_bw_factor
  let shat := kde_shat N nu kde_bw_factor
  let scaled_H : Matrix (Fin nu) (Fin N) ℝ := Matrix.of fun i k => H i k * shat / s
  let dist_mat : Fin M → Fin nu → Fin N → ℝ := fun l i k => scaled_H i k - u i l
  let norms : Fin M → Fin N → ℝ := fun l k =>
    Real.exp (-1 / (2 * shat ^ 2) * Real.sqrt (∑ i, dist_mat l i k ^ 2) ^ 2)
  let q : Fin M → ℝ := fun l => (∑ k, norms l k) / N
  let dq : Fin M → Fin nu → ℝ := fun l i =>
    (∑ k, dist_mat l i k * norms l k) / shat ^ 2 / N
  Matrix.of fun i l => dq l i / q l

/-! ## ISDE integrator step (`_simulate_ito_step`) -/

/-- Embedding of `_simulate_ito_step`; the step's Gaussian draw
`np.random.randn(nu, N)` is the parameter `R`.  `b = f0*dr/4`;
`Weiner = dr**0.5 * R`; `dW = Weiner.dot(a)`; `Zhalf = Z + (dr/2)*Y`;
`L = _get_L(H, Zhalf.dot(basis.T)).dot(a)`;
`Ynext = (1-b)/(1+b)*Y + dr/(1+b)*L + np.sqrt(f0)/(1+b)*dW`;
`Znext = Zhalf + (dr/2)*Ynext`. -/
noncomputable def simulate_ito_step {nu N m : ℕ} (Z Y : Matrix (Fin nu) (Fin m) ℝ)
    (H : Matrix (Fin nu) (Fin N) ℝ) (basis a : Matrix (Fin N) (Fin m) ℝ)
    (f0 dr kde_bw_factor : ℝ) (R : Matrix (Fin nu) (Fin N) ℝ) :
    Matrix (Fin nu) (Fin m) ℝ × Matrix (Fin nu) (Fin m) ℝ :=
  let b := f0 * dr / 4
  let Weiner := dr ^ ((1 : ℝ) / 2) • R
  let dW := Weiner * a
  let Zhalf := Z + (dr / 2) • Y
  let L := get_L H (Zhalf * basis.transpose) kde_bw_factor * a
  let Ynext := ((1 - b) / (1 + b)) • Y + (dr / (1 + b)) • L +
    (Real.sqrt f0 / (1 + b)) • dW
  let Znext := Zhalf + (dr / 2) • Ynext
  (Znext, Ynext)

/-! ## Projector (`_sample_projection`, `_inverse_sample_projection`) -/

/-- The inverse `np.linalg.inv` computes: on an invertible input it is the
matrix inverse, written here in its adjugate form over the field ℝ. -/
noncomputable def matInv {m : ℕ} (A : Matrix (Fin m) (Fin m) ℝ) :
    Matrix (Fin m) (Fin m) ℝ :=
  A.det⁻¹ • A.adjugate

/-- The reduction matrix of `_sample_projection`:
`a = np.dot(g, np.linalg.inv(np.dot(np.transpose(g), g)))`. -/
noncomputable def reduction_matrix {N' m : ℕ} (g : Matrix (Fin N') (Fin m) ℝ) :
    Matrix (Fin N') (Fin m) ℝ :=
  g * matInv (g.transpose * g)

/-- Embedding of `_sample_projection` for an input of shape `N' × nu` (the
shape the wrapper feeds it and the shape `_inverse_sample_projection`
returns): `if H.shape[1] != a.shape[0]: H = H.T`, then `Z = np.dot(H, a)`.
The shape guard compares `nu` with `N'`, so the transpose happens exactly
when `nu ≠ N'`. -/
noncomputable def sample_projection {N' nu m : ℕ} (H : Matrix (Fin N') (Fin nu) ℝ)
    (g : Matrix (Fin N') (Fin m) ℝ) : Matrix (Fin nu) (Fin m) ℝ :=
  let a := reduction_matrix g
  if h : nu = N' then
    (H * a.submatrix (Fin.cast h) id).submatrix (Fin.cast h) id
  else H.transpose * a

/-- Embedding of `_inverse_sample_projection`: `H = np.dot(g, Z.T)`. -/
def inverse_sample_projection {N' nu m : ℕ} (Z : Matrix (Fin nu) (Fin m) ℝ)
    (g : Matrix (Fin N') (Fin m) ℝ) : Matrix (Fin N') (Fin nu) ℝ :=
  g * Z.transpose

/-! ## Conditional-PDF weights (`_get_conditional_weights`, sequential path) -/

/-- Embedding of the sequential (`parallel=False`) branch of
`_get_conditional_weights`: `w_std = np.std(W, axis=0)`;
`w_norms = -1/(2*sw**2) * np.linalg.norm((W-w0)/w_std, axis=1)**2`;
`w_dist = np.exp(w_norms - np.max(w_norms))`; `return w_dist / sum(w_dist)`.
The source divides by `w_std` with no zero guard: when a conditioning
column is constant, `w_std_j = 0`, and the float program propagates
`inf`/`0/0` through the exponent and returns NaN weights for every row.
Over exact arithmetic that division is undefined, so the embedding keeps
the error path explicit: it returns `none` exactly when some column's
standard deviation vanishes, and the normalized weights otherwise. -/
noncomputable def get_conditional_weights {Nsim nw : ℕ} [NeZero Nsim]
    (W : Matrix (Fin Nsim) (Fin nw) ℝ) (w0 : Fin nw → ℝ) (sw : ℝ) :
    Option (Fin Nsim → ℝ) :=
  let w_std : Fin nw → ℝ := fun j =>
    Real.sqrt ((∑ i, (W i j - (∑ i2, W i2 j) / Nsim) ^ 2) / Nsim)
  if ∀ j, w_std j ≠ 0 then
    let w_norms : Fin Nsim → ℝ := fun i =>
      -1 / (2 * sw ^ 2) * Real.sqrt (∑ j, ((W i j - w0 j) / w_std j) ^ 2) ^ 2
    let w_dist : Fin Nsim → ℝ := fun i =>
      Real.exp (w_norms i - Finset.univ.sup' Finset.univ_nonempty w_norms)
    some fun i => w_dist i / ∑ i2, w_dist i2
  else none

/-! ## Sample getter (`get_samples`) -/

/-- Embedding of the control flow of `get_samples` on present arrays:
`k == 0` returns the whole augmented pool; for positive `k`,
`if k*train_size < samples_size: samples = augmented[:k*train_size]
else: raise Exception("Too many samples requested ...")`. -/
def get_samples (training augmented : List (List ℚ)) (k : ℕ) :
    Except String (List (List ℚ)) :=
  if k = 0 then Except.ok augmented
  else if k * training.length < augmented.length then
    Except.ok (augmented.take (k * training.length))
  else Except.error "Too many samples requested"

/-! ## Helper lemmas -/

/-- A `find?` hit on `List.range' s k` is the first index in `[s, s+k)`
satisfying the predicate: this is how a Python `for`/`break` scan reports. -/
theorem find?_range'_some {p : ℕ → Bool} :
    ∀ k s a, (List.range' s k).find? p = some a →
      s ≤ a ∧ a < s + k ∧ p a = true ∧ ∀ j, s ≤ j → j < a → p j = false
  | 0, s, a => by
    intro h
    simp [List.range'] at h
  | k + 1, s, a => by
    intro h
    rw [List.range'_succ] at h
    by_cases hp : p s
    · rw [List.find?_cons_of_pos _ hp] at h
      cases h
      exact ⟨le_refl s, by omega, hp, fun j h1 h2 => absurd h1 (by omega)⟩
    · rw [List.find?_cons_of_neg _ hp] at h
      obtain ⟨h1, h2, h3, h4⟩ := find?_range'_some k (s + 1) a h
      refine ⟨by omega, by omega, h3, fun j hj1 hj2 => ?_⟩
      rcases eq_or_lt_of_le hj1 with rfl | hj
      · exact Bool.eq_false_iff.mpr hp
      · exact h4 j (by omega) hj2

/-- Prefix sums of a list of non-negative terms are monotone. -/
theorem sum_take_monotone {α : Type*} [LinearOrderedField α] {l : List α}
    (h : ∀ x ∈ l, 0 ≤ x) {i j : ℕ} (hij : i ≤ j) :
    (l.take i).sum ≤ (l.take j).sum := by
  have h1 : l.take i = (l.take j).take i := by
    rw [List.take_take, min_eq_left hij]
  rw [h1]
  have h2 := List.sum_take_add_sum_drop (l.take j) i
  have h3 : 0 ≤ ((l.take j).drop i).sum :=
    List.sum_nonneg fun x hx => h x (List.take_subset _ _ (List.drop_subset _ _ hx))
  linarith

/-! ## C3: manifold dimension from the eigenvalue gap -/

/-- C3 (counterexample). On the descending eigenvalues `[1, 1, 1, 1/100]`
with cutoff `L = 1/10` (so `μ₀ = 1`, `L ∈ (0,1)`), the claim's rule — the
smallest `i−1`, scanning `i = 2…N−1`, with `μ_{i+1}/μ_1 < L` — fires first
at `i = 2` (conjunct: `μ₃/μ₁ < L`), giving `m = 1`; the code instead tests
`μ_i/μ_1` and returns `m = 2 ≠ 1`. -/
theorem get_dmaps_optimal_dimension_cex :
    List.Sorted (· ≥ ·) [(1 : ℚ), 1, 1, 1 / 100] ∧
    [(1 : ℚ), 1, 1, 1 / 100].getD 0 0 = 1 ∧
    (0 : ℚ) < 1 / 10 ∧ (1 : ℚ) / 10 < 1 ∧
    [(1 : ℚ), 1, 1, 1 / 100].getD (2 + 1) 0 / [(1 : ℚ), 1, 1, 1 / 100].getD 1 0
      < 1 / 10 ∧
    get_dmaps_optimal_dimension [(1 : ℚ), 1, 1, 1 / 100] (1 / 10) ≠ 1 := by
  norm_num [get_dmaps_optimal_dimension, List.find?, List.Sorted,
    List.pairwise_cons]

/-- C3 (amended): for every eigenvalue list and cutoff, the computed
dimension `m` is `N−1` when no index `i ∈ [2, N)` has `μ_i/μ_1 < L`, and
otherwise `m = i₀ − 1` for the least such index `i₀` (the claim's
`μ_{i+1}/μ_1` corrected to `μ_i/μ_1`). -/
theorem get_dmaps_optimal_dimension_spec {α : Type*} [LinearOrderedField α]
    (ev : List α) (L : α) :
    (get_dmaps_optimal_dimension ev L = ev.length - 1 ∧
        ∀ i, 2 ≤ i → i < ev.length → ¬(ev.getD i 0 / ev.getD 1 0 < L)) ∨
    (2 ≤ get_dmaps_optimal_dimension ev L + 1 ∧
        get_dmaps_optimal_dimension ev L + 1 < ev.length ∧
        ev.getD (get_dmaps_optimal_dimension ev L + 1) 0 / ev.getD 1 0 < L ∧
        ∀ j, 2 ≤ j → j < get_dmaps_optimal_dimension ev L + 1 →
          ¬(ev.getD j 0 / ev.getD 1 0 < L)) := by
  unfold get_dmaps_optimal_dimension
  cases hfind : (List.range' 2 (ev.length - 2)).find?
      (fun a => decide (ev.getD a 0 / ev.getD 1 0 < L)) with
  | none =>
    left
    refine ⟨rfl, fun i h2 hlen hlt => ?_⟩
    have hmem : i ∈ List.range' 2 (ev.length - 2) :=
      List.mem_range'_1.mpr ⟨h2, by omega⟩
    have := List.find?_eq_none.mp hfind i hmem
    exact this (decide_eq_true hlt)
  | some a =>
    right
    obtain ⟨h1, h2, h3, h4⟩ := find?_range'_some _ _ _ hfind
    have ha : a - 1 + 1 = a := by omega
    rw [ha]
    refine ⟨h1, by omega, of_decide_eq_true h3, fun j hj1 hj2 h => ?_⟩
    have := h4 j hj1 hj2
    rw [decide_eq_true h] at this
    exact Bool.true_eq_false.mp this

/-! ## C5: PCA `cum_energy` truncation and the top-ν rule -/

/-- C5: on an ascending list of non-negative eigenvalues with positive total
and an energy threshold `E ∈ (0,1]`, the tail-test loop of `_pca` retains
exactly the top `ν` eigenvalues for the smallest `ν` whose top-`ν` share of
the total reaches `E`: the implemented tail test and the spec's top-energy
rule are equivalent. -/
theorem pca_cum_energy_trunc_spec {α : Type*} [LinearOrderedField α]
    (ev : List α) (E : α) (hsorted : List.Sorted (· ≤ ·) ev)
    (hnn : ∀ x ∈ ev, 0 ≤ x) (hT : 0 < ev.sum) (hE0 : 0 < E) (hE1 : E ≤ 1) :
    ∃ nkeep : ℕ, nkeep ≤ ev.length ∧
      pca_cum_energy_trunc ev E = ev.drop (ev.length - nkeep) ∧
      E ≤ (ev.drop (ev.length - nkeep)).sum / ev.sum ∧
      ∀ n2 < nkeep, (ev.drop (ev.length - n2)).sum / ev.sum < E := by
  have hTn : ev.sum ≠ 0 := ne_of_gt hT
  have hplast : ((ev.take ev.length).sum / ev.sum > 1 - E) := by
    rw [List.take_length, div_self hTn]
    linarith
  have hfind : (List.range (ev.length + 1)).find?
      (fun i => decide ((ev.take i).sum / ev.sum > 1 - E)) ≠ none := by
    intro hnone
    have hmem : ev.length ∈ List.range (ev.length + 1) :=
      List.mem_range.mpr (by omega)
    exact List.find?_eq_none.mp hnone _ hmem (decide_eq_true hplast)
  cases hfind2 : (List.range (ev.length + 1)).find?
      (fun i => decide ((ev.take i).sum / ev.sum > 1 - E)) with
  | none => exact absurd hfind2 hfind
  | some i =>
    rw [List.range_eq_range'] at hfind2
    obtain ⟨h1, h2, h3, h4⟩ := find?_range'_some _ _ _ hfind2
    have hi : (ev.take i).sum / ev.sum > 1 - E := of_decide_eq_true h3
    have hipos : 1 ≤ i := by
      rcases Nat.eq_zero_or_pos i with rfl | h
      · exfalso
        rw [List.take_zero, List.sum_nil, zero_div] at hi
        linarith
      · exact h
    have hilen : i ≤ ev.length := by omega
    refine ⟨ev.length - i + 1, by omega, ?_, ?_, ?_⟩
    · unfold pca_cum_energy_trunc
      rw [List.range_eq_range', hfind2]
      have hidx : ev.length - (ev.length - i + 1) = i - 1 := by omega
      rw [hidx]
    · have hk : ev.length - (ev.length - i + 1) = i - 1 := by omega
      rw [hk]
      have hsplit := List.sum_take_add_sum_drop ev (i - 1)
      have hprev : ¬((ev.take (i - 1)).sum / ev.sum > 1 - E) := by
        intro hgt
        have := h4 (i - 1) (by omega) (by omega)
        rw [decide_eq_true hgt] at this
        exact Bool.true_eq_false.mp this
      have hle : (ev.take (i - 1)).sum / ev.sum ≤ 1 - E := le_of_not_lt hprev
      have hle2 : (ev.take (i - 1)).sum ≤ (1 - E) * ev.sum :=
        (div_le_iff₀ hT).mp hle
      rw [le_div_iff₀ hT]
      linarith
    · intro n2 hn2
      have hidx : i ≤ ev.length - n2 := by omega
      have hmono := sum_take_monotone hnn hidx
      have hgt : (1 - E) * ev.sum < (ev.take i).sum := (lt_div_iff₀ hT).mp hi
      have hsplit := List.sum_take_add_sum_drop ev (ev.length - n2)
      rw [div_lt_iff₀ hT]
      linarith

/-- C5 (witness): the truncation equivalence at the concrete eigenvalue
list `[1]` with full energy threshold `E = 1`. -/
theorem pca_cum_energy_trunc_spec_witness :
    ∃ nkeep : ℕ, nkeep ≤ [(1 : ℚ)].length ∧
      pca_cum_energy_trunc [(1 : ℚ)] 1 =
        [(1 : ℚ)].drop ([(1 : ℚ)].length - nkeep) ∧
      (1 : ℚ) ≤ ([(1 : ℚ)].drop ([(1 : ℚ)].length - nkeep)).sum / [(1 : ℚ)].sum ∧
      ∀ n2 < nkeep,
        ([(1 : ℚ)].drop ([(1 : ℚ)].length - n2)).sum / [(1 : ℚ)].sum < 1 :=
  pca_cum_energy_trunc_spec [(1 : ℚ)] 1 (by simp) (by norm_num) (by norm_num)
    one_pos (le_refl 1)

/-! ## C10: the sample getter's pool-size guard -/

/-- C10: with a training set of `N = 2` rows and an augmented pool of
`P = 2` rows, the request `k = 1` has `k·N = 2 ≤ P`, yet `get_samples`
raises "Too many samples requested" — the guard `k*train_size <
samples_size` excludes the boundary `k·N = P` that its own error message
("available samples = 1") and docstring admit. -/
theorem get_samples_boundary_raises :
    get_samples [[0], [0]] [[1], [2]] 1 =
      Except.error "Too many samples requested" ∧ 1 * 2 ≤ 2 := by
  constructor
  · rfl
  · decide

/-! ## C6: reduction matrix and the projection round trip -/

/-- C6 (counterexample). With `g = [[1],[0]]` (so `gᵀg = I₁` is invertible)
and `Z = [[0],[1]]` of shape `ν×m = 2×1`, the round trip
`sample_projection (inverse_sample_projection Z g) g` does not recover `Z`:
here `ν = N = 2`, the shape guard of `_sample_projection` does not
transpose, and the composite computes `g Zᵀ a ≠ Z`. -/
theorem projection_roundtrip_cex :
    ((!![(1 : ℝ); 0]).transpose * !![(1 : ℝ); 0]).det ≠ 0 ∧
    sample_projection (inverse_sample_projection !![(0 : ℝ); 1] !![(1 : ℝ); 0])
      !![(1 : ℝ); 0] ≠ !![(0 : ℝ); 1] := by
  have hgtg : (!![(1 : ℝ); 0]).transpose * !![(1 : ℝ); 0] = 1 := by
    ext i j
    fin_cases i
    fin_cases j
    simp [Matrix.mul_apply, Fin.sum_univ_succ]
  have ha : reduction_matrix !![(1 : ℝ); 0] = !![(1 : ℝ); 0] := by
    rw [reduction_matrix, hgtg, matInv, Matrix.det_one, Matrix.adjugate_one]
    simp
  constructor
  · rw [hgtg, Matrix.det_one]
    exact one_ne_zero
  · intro heq
    have h10 := congrFun (congrFun heq 1) 0
    rw [sample_projection] at h10
    simp only [ha, dif_pos rfl, Fin.cast_refl, Matrix.submatrix_id_id,
      inverse_sample_projection] at h10
    simp [Matrix.mul_apply, Fin.sum_univ_succ] at h10

/-- C6 (amended): for every reduced basis `g` with `gᵀg` invertible, the
reduction matrix `a = g(gᵀg)⁻¹` satisfies `gᵀa = I`, and — provided
`ν ≠ N`, so that the shape guard of `_sample_projection` transposes the
`N×ν` input — the projection round trip recovers `Z` exactly. -/
theorem projection_roundtrip {Nn nu m : ℕ} (g : Matrix (Fin Nn) (Fin m) ℝ)
    (Z : Matrix (Fin nu) (Fin m) ℝ) (hdet : (g.transpose * g).det ≠ 0)
    (hne : nu ≠ Nn) :
    g.transpose * reduction_matrix g = 1 ∧
    sample_projection (inverse_sample_projection Z g) g = Z := by
  have hinv : g.transpose * g * matInv (g.transpose * g) = 1 := by
    rw [matInv, Matrix.mul_smul, Matrix.mul_adjugate, smul_smul,
      inv_mul_cancel₀ hdet, one_smul]
  have h1 : g.transpose * reduction_matrix g = 1 := by
    rw [reduction_matrix, ← Matrix.mul_assoc]
    exact hinv
  refine ⟨h1, ?_⟩
  rw [sample_projection, dif_neg hne, inverse_sample_projection,
    Matrix.transpose_mul, Matrix.transpose_transpose, Matrix.mul_assoc, h1,
    Matrix.mul_one]

/-- C6 (witness): the amended round trip at `g = [[1],[0]]`,
`Z = [[5]]` (`ν = 1 ≠ 2 = N`). -/
theorem projection_roundtrip_witness :
    (!![(1 : ℝ); 0]).transpose * reduction_matrix !![(1 : ℝ); 0] = 1 ∧
    sample_projection (inverse_sample_projection !![(5 : ℝ)] !![(1 : ℝ); 0])
      !![(1 : ℝ); 0] = !![(5 : ℝ)] :=
  projection_roundtrip !![(1 : ℝ); 0] !![(5 : ℝ)]
    (by
      have hgtg : (!![(1 : ℝ); 0]).transpose * !![(1 : ℝ); 0] = 1 := by
        ext i j
        fin_cases i
        fin_cases j
        simp [Matrix.mul_apply, Fin.sum_univ_succ]
      rw [hgtg, Matrix.det_one]
      exact one_ne_zero)
    (by decide)

/-! ## C7: scaler round trip -/

/-- C7: for every real `N×n` matrix `X` (constant columns included, whose
zero range is replaced by scale 1) and for either scaling mode, applying
the forward scaler and then `_inverse_scale` returns `X` exactly. -/
theorem scale_inverse_scale_roundtrip {N n : ℕ} [NeZero N]
    (X : Matrix (Fin N) (Fin n) ℝ) :
    inverse_scale (scaleMinMax X).1 (scaleMinMax X).2.1 (scaleMinMax X).2.2 = X ∧
    inverse_scale (scaleNormalize X).1 (scaleNormalize X).2.1
      (scaleNormalize X).2.2 = X := by
  constructor
  · ext i j
    simp only [inverse_scale, scaleMinMax, Matrix.of_apply]
    have hs : (if Finset.univ.sup' Finset.univ_nonempty (fun i2 => X i2 j) -
        Finset.univ.inf' Finset.univ_nonempty (fun i2 => X i2 j) = 0 then (1 : ℝ)
        else Finset.univ.sup' Finset.univ_nonempty (fun i2 => X i2 j) -
          Finset.univ.inf' Finset.univ_nonempty (fun i2 => X i2 j)) ≠ 0 := by
      split
      · exact one_ne_zero
      · assumption
    rw [div_mul_cancel₀ _ hs]
    ring
  · ext i j
    simp only [inverse_scale, scaleNormalize, Matrix.of_apply]
    have hs : (if Real.sqrt ((∑ i2, (X i2 j - (∑ i3, X i3 j) / N) ^ 2) / N) = 0
        then (1 : ℝ)
        else Real.sqrt ((∑ i2, (X i2 j - (∑ i3, X i3 j) / N) ^ 2) / N)) ≠ 0 := by
      split
      · exact one_ne_zero
      · assumption
    rw [div_mul_cancel₀ _ hs]
    ring

/-- C7 (witness): the round trip at the concrete `1×1` matrix `[[5]]`. -/
theorem scale_inverse_scale_roundtrip_witness :
    inverse_scale (scaleMinMax !![(5 : ℝ)]).1 (scaleMinMax !![(5 : ℝ)]).2.1
      (scaleMinMax !![(5 : ℝ)]).2.2 = !![(5 : ℝ)] ∧
    inverse_scale (scaleNormalize !![(5 : ℝ)]).1 (scaleNormalize !![(5 : ℝ)]).2.1
      (scaleNormalize !![(5 : ℝ)]).2.2 = !![(5 : ℝ)] :=
  scale_inverse_scale_roundtrip !![(5 : ℝ)]

/-! ## C9: conditional-PDF weights -/

/-- C9 (counterexample). At `W = [[1],[1]]` (one constant conditioning
column, all entries finite), `w0 = (0)` and bandwidth `s_w = 1 > 0`, the
per-column standard deviation is `0` and the unguarded division
`(W - w0)/w_std` of `_get_conditional_weights` is undefined (the float
program returns NaN weights for every row), so no non-negative, sum-to-1
weights are produced: the claim fails as stated. -/
theorem get_conditional_weights_cex :
    (0 : ℝ) < 1 ∧ get_conditional_weights !![(1 : ℝ); 1] ![0] 1 = none := by
  refine ⟨one_pos, ?_⟩
  simp only [get_conditional_weights]
  have h0 : Real.sqrt ((∑ i : Fin 2,
      ((!![(1 : ℝ); 1] : Matrix (Fin 2) (Fin 1) ℝ) i 0 -
        (∑ i2 : Fin 2, (!![(1 : ℝ); 1] : Matrix (Fin 2) (Fin 1) ℝ) i2 0) /
          ((2 : ℕ) : ℝ)) ^ 2) / ((2 : ℕ) : ℝ)) = 0 := by
    norm_num [Fin.sum_univ_succ]
  rw [if_neg]
  intro hall
  exact hall 0 h0

/-- C9 (amended): for every conditioning sample matrix `W` (with at least
one row) all of whose conditioning columns have nonzero standard
deviation, every query point `w0` and every bandwidth `s_w > 0`, the
stabilized, normalized conditioning weights are produced and are all
non-negative and sum to exactly 1; on a `W` with a constant column the
unguarded division by the zero standard deviation leaves the weights
undefined (NaN in the float program). -/
theorem get_conditional_weights_nonneg_sum_one {Nsim nw : ℕ} [NeZero Nsim]
    (W : Matrix (Fin Nsim) (Fin nw) ℝ) (w0 : Fin nw → ℝ) (sw : ℝ)
    (hsw : 0 < sw)
    (hstd : ∀ j, Real.sqrt ((∑ i, (W i j - (∑ i2, W i2 j) / Nsim) ^ 2) / Nsim)
      ≠ 0) :
    ∃ w, get_conditional_weights W w0 sw = some w ∧
      (∀ i, 0 ≤ w i) ∧ (∑ i, w i) = 1 := by
  have key : ∀ f : Fin Nsim → ℝ, (∀ i, 0 < f i) →
      (∀ i, 0 ≤ f i / ∑ i2, f i2) ∧ (∑ i, f i / ∑ i2, f i2) = 1 := by
    intro f hf
    have hS : 0 < ∑ i2, f i2 :=
      Finset.sum_pos (fun i _ => hf i) Finset.univ_nonempty
    exact ⟨fun i => div_nonneg (hf i).le hS.le,
      by rw [← Finset.sum_div, div_self hS.ne']⟩
  simp only [get_conditional_weights]
  rw [if_pos hstd]
  exact ⟨_, rfl, (key _ fun i => Real.exp_pos _).1,
    (key _ fun i => Real.exp_pos _).2⟩

/-- C9 (witness): the amended weights at the concrete non-constant `2×1`
sample `[[0],[1]]` (column standard deviation `1/2 ≠ 0`), `w0 = (0)`,
`s_w = 1`. -/
theorem get_conditional_weights_nonneg_sum_one_witness :
    ∃ w, get_conditional_weights !![(0 : ℝ); 1] ![0] 1 = some w ∧
      (∀ i, 0 ≤ w i) ∧ (∑ i, w i) = 1 :=
  get_conditional_weights_nonneg_sum_one !![(0 : ℝ); 1] ![0] 1 one_pos
    (by
      intro j
      fin_cases j
      rw [Real.sqrt_ne_zero']
      norm_num [Fin.sum_univ_succ])

/-! ## C2: the canonical KDE log-density gradient -/

/-- C2: for every training matrix `H`, query matrix `u` and bandwidth
factor (in particular any `N ≥ 1` and factor `> 0`), column `l` of the
method-2 routine is `∇q_ℓ / q_ℓ` with
`r_{k,ℓ} = (ŝ/s)·h_k − u_ℓ`, `w_{k,ℓ} = exp(−‖r_{k,ℓ}‖²/(2ŝ²))`,
`q_ℓ = (1/N) Σ_k w_{k,ℓ}` and `∇q_ℓ = (1/(Nŝ²)) Σ_k r_{k,ℓ}·w_{k,ℓ}`. -/
theorem get_L_spec {nu N M : ℕ} (H : Matrix (Fin nu) (Fin N) ℝ)
    (u : Matrix (Fin nu) (Fin M) ℝ) (bw : ℝ) (i : Fin nu) (l : Fin M) :
    get_L H u bw i l =
      (1 / (N * kde_shat N nu bw ^ 2) *
          ∑ k, (kde_shat N nu bw / kde_s N nu bw * H i k - u i l) *
            Real.exp (-(∑ i2, (kde_shat N nu bw / kde_s N nu bw * H i2 k -
                u i2 l) ^ 2) / (2 * kde_shat N nu bw ^ 2))) /
      (1 / (N : ℝ) *
          ∑ k, Real.exp (-(∑ i2, (kde_shat N nu bw / kde_s N nu bw * H i2 k -
              u i2 l) ^ 2) / (2 * kde_shat N nu bw ^ 2))) := by
  have hr : ∀ (i2 : Fin nu) (k : Fin N),
      H i2 k * kde_shat N nu bw / kde_s N nu bw - u i2 l =
        kde_shat N nu bw / kde_s N nu bw * H i2 k - u i2 l := by
    intro i2 k
    ring
  simp only [get_L, Matrix.of_apply, hr]
  have hw : ∀ k : Fin N,
      Real.exp (-1 / (2 * kde_shat N nu bw ^ 2) *
          Real.sqrt (∑ i2, (kde_shat N nu bw / kde_s N nu bw * H i2 k -
            u i2 l) ^ 2) ^ 2) =
        Real.exp (-(∑ i2, (kde_shat N nu bw / kde_s N nu bw * H i2 k -
            u i2 l) ^ 2) / (2 * kde_shat N nu bw ^ 2)) := by
    intro k
    rw [Real.sq_sqrt (Finset.sum_nonneg fun i2 _ => sq_nonneg _)]
    congr 1
    ring
  simp only [hw]
  ring

/-! ## C1: one discrete ISDE step -/

/-- C1: for all inputs (in particular any `f₀ > 0`, `dr > 0`), one step of
`_simulate_ito_step` returns exactly `(Z_next, Y_next)` with
`b = f₀·dr/4`, `Z_half = Z + (dr/2)·Y`,
`L = ∇log q(Z_half·gᵀ)·a`,
`Y_next = ((1−b)/(1+b))·Y + (dr/(1+b))·L + (√f₀/(1+b))·dW`,
`dW = √dr·R·a` for the step's Gaussian draw `R`, and
`Z_next = Z_half + (dr/2)·Y_next`. -/
theorem simulate_ito_step_spec {nu N m : ℕ} (Z Y : Matrix (Fin nu) (Fin m) ℝ)
    (H : Matrix (Fin nu) (Fin N) ℝ) (basis a : Matrix (Fin N) (Fin m) ℝ)
    (f0 dr bw : ℝ) (R : Matrix (Fin nu) (Fin N) ℝ) :
    simulate_ito_step Z Y H basis a f0 dr bw R =
      (Z + (dr / 2) • Y + (dr / 2) •
          (((1 - f0 * dr / 4) / (1 + f0 * dr / 4)) • Y +
            (dr / (1 + f0 * dr / 4)) •
              (get_L H ((Z + (dr / 2) • Y) * basis.transpose) bw * a) +
            (Real.sqrt f0 / (1 + f0 * dr / 4)) • (Real.sqrt dr • (R * a))),
        ((1 - f0 * dr / 4) / (1 + f0 * dr / 4)) • Y +
          (dr / (1 + f0 * dr / 4)) •
            (get_L H ((Z + (dr / 2) • Y) * basis.transpose) bw * a) +
          (Real.sqrt f0 / (1 + f0 * dr / 4)) • (Real.sqrt dr • (R * a))) := by
  simp only [simulate_ito_step, Real.sqrt_eq_rpow, Matrix.smul_mul]

/-! ## C8: the zero-noise, zero-momentum step is not a fixed point -/

/-- One zero-noise (`R = 0`), zero-momentum (`Y = 0`) step, reduced: the
position moves by the damped drift term. -/
theorem ito_step_zero_noise {nu N m : ℕ} (Z : Matrix (Fin nu) (Fin m) ℝ)
    (H : Matrix (Fin nu) (Fin N) ℝ) (basis a : Matrix (Fin N) (Fin m) ℝ)
    (f0 dr bw : ℝ) :
    (simulate_ito_step Z 0 H basis a f0 dr bw 0).1 =
      Z + (dr / 2 * (dr / (1 + f0 * dr / 4))) •
        (get_L H (Z * basis.transpose) bw * a) := by
  simp only [simulate_ito_step, smul_zero, Matrix.zero_mul, add_zero, zero_add,
    smul_smul]

/-- C8 (counterexample). At `ν = N = m = 1` with `H = [[0]]`, `g = a =
[[1]]`, `Z = [[1]]`, `f₀ = dr = 1` (both positive) and KDE factor `1`, the
zero-noise zero-momentum step returns `Z_next = [[3/5]] ≠ Z`: the KDE drift
`L(Z) = [[−1]]` does not vanish, so `Z` is not a fixed point. -/
theorem ito_step_fixed_point_cex :
    (0 : ℝ) < 1 ∧
    (simulate_ito_step !![(1 : ℝ)] 0 !![(0 : ℝ)] !![(1 : ℝ)] !![(1 : ℝ)]
        1 1 1 0).1 ≠ !![(1 : ℝ)] := by
  refine ⟨one_pos, ?_⟩
  have hs : (0 : ℝ) < kde_s 1 1 1 := by
    rw [kde_s]
    have h4 : (0 : ℝ) < (4 : ℝ) / ((1 : ℕ) * (2 + (1 : ℕ))) := by norm_num
    simpa using Real.rpow_pos_of_pos h4 _
  have hshat : kde_shat 1 1 1 = 1 := by
    rw [kde_shat]
    have h0 : kde_s 1 1 1 ^ 2 + (((1 : ℕ) : ℝ) - 1) / (1 : ℕ) =
        kde_s 1 1 1 ^ 2 := by norm_num
    rw [h0, Real.sqrt_sq hs.le, div_self hs.ne']
  have hu : !![(1 : ℝ)] * (!![(1 : ℝ)] : Matrix (Fin 1) (Fin 1) ℝ).transpose =
      !![(1 : ℝ)] := by
    ext i j
    fin_cases i
    fin_cases j
    simp [Matrix.mul_apply]
  have hL : get_L !![(0 : ℝ)] !![(1 : ℝ)] 1 = !![(-1 : ℝ)] := by
    ext i j
    fin_cases i
    fin_cases j
    simp only [get_L, Matrix.of_apply, Fin.sum_univ_one, hshat]
    norm_num
  intro heq
  have h00 := congrFun (congrFun heq 0) 0
  rw [ito_step_zero_noise, hu, hL] at h00
  simp only [Matrix.add_apply, Matrix.smul_apply, Matrix.mul_apply,
    Fin.sum_univ_one, smul_eq_mul] at h00
  norm_num at h00

/-- C8 (amended): a zero-noise, zero-momentum step leaves `Z` unchanged up
to the damped drift: `Z_next = Z + (dr²/(2(1+b)))·L(Z)` with `b = f₀·dr/4`
and `L(Z) = ∇log q(Z·gᵀ)·a`; `Z` is a fixed point exactly when the KDE
drift `L(Z)` vanishes, not in general. -/
theorem ito_step_fixed_point_amended {nu N m : ℕ}
    (Z : Matrix (Fin nu) (Fin m) ℝ) (H : Matrix (Fin nu) (Fin N) ℝ)
    (basis a : Matrix (Fin N) (Fin m) ℝ) (f0 dr bw : ℝ) :
    (simulate_ito_step Z 0 H basis a f0 dr bw 0).1 =
      Z + (dr ^ 2 / (2 * (1 + f0 * dr / 4))) •
        (get_L H (Z * basis.transpose) bw * a) := by
  rw [ito_step_zero_noise]
  congr 2
  rcases eq_or_ne (1 + f0 * dr / 4) 0 with h | h
  · rw [h]
    simp
  · field_simp
    ring

end PLoM
